import Mathlib

/-
Verification development for `renorm.py`, a tool that computes systematic
renormalisation factors for a physics analysis.

Modelling conventions of the shallow embedding:
  * Python dicts are association lists `List (String × α)` with Python's
    update semantics (`m[k] = v` replaces in place when `k` exists,
    otherwise appends); dict iteration follows insertion order.
  * Python floats are modelled as exact rationals `ℚ`.
  * `ZeroDivisionError` is modelled with `Except Unit`.
  * The ROOT `RDataFrame` pipeline (open a file, filter by a selection,
    sum a weight expression over the surviving rows) is an external
    collaborator; it is abstracted as a function
    `Accessor : path → selection → weight expression → ℚ`.
  * `multiprocessing.Pool.map` is modelled as `List.map` (the workers share
    no mutable state and return plain values, in the order of the input).
-/

set_option autoImplicit false

/-! ### Python dict primitives -/

/-- Python `m[k]`-style lookup: first entry with key `k`, `none` if absent. -/
def lkp {α : Type} (k : String) : List (String × α) → Option α
  | [] => none
  | p :: t => if p.1 = k then some p.2 else lkp k t

/-- The key list of a dict, in insertion order (Python `m.keys()`). -/
def keysS {α : Type} (m : List (String × α)) : List String := m.map Prod.fst

/-- Python `m[k] = v`: replace the entry in place when the key exists,
otherwise append a new entry at the end. -/
def setKey {α : Type} (k : String) (v : α) : List (String × α) → List (String × α)
  | [] => [(k, v)]
  | p :: t => if p.1 = k then (k, v) :: t else p :: setKey k v t

/-- Python `m.get(k, 0)` for numeric dicts. -/
def getD0 (m : List (String × ℚ)) (k : String) : ℚ := (lkp k m).getD 0

/-- Python dict equality `==` for dicts with unique keys: the same keys are
present and each key maps to the same value (insertion order is ignored). -/
def dictEq (X Y : List (String × ℚ)) : Prop := ∀ k, lkp k X = lkp k Y

/-! ### Python string primitives: `needle in hay` and `s.endswith(t)` -/

/-- `startsWithL needle hay`: `hay` begins with `needle`. -/
def startsWithL : List Char → List Char → Bool
  | [], _ => true
  | _ :: _, [] => false
  | c :: cs, d :: ds => c == d && startsWithL cs ds

/-- Python substring test `needle in hay` on character lists. -/
def hasSubstring (needle : List Char) : List Char → Bool
  | [] => startsWithL needle []
  | c :: rest => startsWithL needle (c :: rest) || hasSubstring needle rest

/-- Python `needle in hay` on strings. -/
def strContains (hay needle : String) : Bool := hasSubstring needle.data hay.data

/-- Python `s.endswith(t)` on character lists. -/
def ends_with (s t : List Char) : Bool := startsWithL t.reverse s.reverse

/-! ### Source: module-level helper -/

/-- `ensure_root_extension` (renorm.py lines 16-20): add the `.root`
extension if it is missing. -/
def ensure_root_extension (file_name : String) : String :=
  if !ends_with file_name.data ".root".data then file_name ++ ".root"
  else file_name

/-! ### Source: `YieldResult` -/

/-- `YieldResult.merge` (renorm.py lines 49-51), functionally: for every
entry of `other`, `self.yields[k] = self.yields.get(k, 0) + v`. -/
def mergeY (self other : List (String × ℚ)) : List (String × ℚ) :=
  other.foldl (fun m p => setKey p.1 (getD0 m p.1 + p.2) m) self

/-! ### Source: data model of the configuration -/

/-- A systematic of `type: "weight"` (fields read by the source). -/
structure WeightSystematic where
  name : String
  up_weight : String
  down_weight : String
deriving DecidableEq

/-- A systematic of `type: "sample"` (fields read by the source;
`up_files` / `down_files` and the extra weights are optional). -/
structure SampleSystematic where
  name : String
  up_files : Option (List String)
  down_files : Option (List String)
  up_weight : Option String
  down_weight : Option String
deriving DecidableEq

/-- The `type` discriminator of a systematic config entry. -/
inductive Systematic : Type
  | weight : WeightSystematic → Systematic
  | sample : SampleSystematic → Systematic
deriving DecidableEq

/-- One flavour's configuration: `selection`, `files`, `systematics`. -/
structure FlavourConfig where
  selection : String
  files : List String
  systematics : List Systematic
deriving DecidableEq

/-- The external dataset accessor: given a file path, a selection and a
weight expression, return the weighted sum over the surviving rows
(`ROOT.RDataFrame(...).Filter(selection).Define(w, expr).Sum(w)`). -/
abbrev Accessor : Type := String → String → String → ℚ

/-- `os.path.join(base_path, folder, file)` for the plain relative paths
used by this tool. -/
def joinPath (base folder file : String) : String :=
  base ++ "/" ++ folder ++ "/" ++ file

/-! ### Source: selection adjustment (the two inline `if` statements) -/

/-- The selection adjustment of the nominal / weight-based pass
(renorm.py lines 160-163): append the configured resolved clause when the
folder name contains neither `"boosted"` nor `"2l_"`. -/
def adjust_selection_nominal (resolved selection folder : String) : String :=
  if !strContains folder "boosted" && !strContains folder "2l_" then
    selection ++ resolved
  else selection

/-- The selection adjustment of the sample-based pass
(renorm.py lines 128-133): append the configured resolved clause when the
folder name does not contain `"boosted"` (no `"2l_"` check here). -/
def adjust_selection_sample (resolved selection folder : String) : String :=
  if !strContains folder "boosted" then selection ++ resolved
  else selection

/-! ### Source: `SystematicYieldCalc.calculate_yields` -/

/-- `calculate_yields` (renorm.py lines 85-97): filter by `selection`, then
for each named weight expression store the weighted sum in a fresh dict. -/
def calculate_yields (acc : Accessor) (path : String)
    (weight_expressions : List (String × String)) (selection : String) :
    List (String × ℚ) :=
  weight_expressions.foldl
    (fun result p => setKey p.1 (acc path selection p.2) result) []

/-! ### Source: `process_weight_based_systematic` and its calling loop -/

/-- `process_weight_based_systematic` (renorm.py lines 99-106): add the
`<name>_up` / `<name>_down` weight expressions, each the nominal weight
expression (looked up in the dict) times the systematic's factor.
Python raises `KeyError` when `"nominal"` is absent; that is unreachable
from `process_flavour`, which always seeds the dict with `"nominal"`;
the embedding uses `""` as the (unreachable) default. -/
def process_weight_based_systematic (w : WeightSystematic)
    (weight_expressions : List (String × String)) : List (String × String) :=
  let we1 := setKey (w.name ++ "_up")
    ("(" ++ (lkp "nominal" weight_expressions).getD "" ++ ")*(" ++ w.up_weight ++ ")")
    weight_expressions
  setKey (w.name ++ "_down")
    ("(" ++ (lkp "nominal" we1).getD "" ++ ")*(" ++ w.down_weight ++ ")") we1

/-- One iteration of the loop at renorm.py lines 155-157: only systematics
with `type == "weight"` touch the weight-expression dict. -/
def weight_exprs_step (we : List (String × String)) :
    Systematic → List (String × String)
  | Systematic.weight w => process_weight_based_systematic w we
  | Systematic.sample _ => we

/-- The loop at renorm.py lines 154-157: start from
`{"nominal": nominal_weight}` and process each weight-type systematic. -/
def buildWeightExprs (systematics : List Systematic) (nominal_weight : String) :
    List (String × String) :=
  systematics.foldl weight_exprs_step [("nominal", nominal_weight)]

/-- The dict keys written by the weight-based systematics, in write order. -/
def systWeightKeys : List Systematic → List String
  | [] => []
  | Systematic.weight w :: t =>
      (w.name ++ "_up") :: (w.name ++ "_down") :: systWeightKeys t
  | Systematic.sample _ :: t => systWeightKeys t

/-- The dict keys a sample-based systematic may write (both directions,
whether or not each is configured). -/
def sampleKeys : List Systematic → List String
  | [] => []
  | Systematic.weight _ :: t => sampleKeys t
  | Systematic.sample s :: t =>
      (s.name ++ "_" ++ "up") :: (s.name ++ "_" ++ "down") :: sampleKeys t

/-! ### Source: `process_sample_based_systematic` -/

/-- One direction (`up` or `down`) of `process_sample_based_systematic`
(renorm.py lines 118-150): when the direction's file list is configured,
accumulate over its files and all folders the accessor sum with weight
`(nominal_weight)*(additional_weight)` (additional weight defaults to
`"1"`), then store the total under `<name>_<variation_type>`; when the
file list is absent, only log, leaving the dict untouched. -/
def sample_direction (acc : Accessor) (resolved base_path : String)
    (folders : List String) (nominal_weight selection sname : String)
    (variation_type : String) (filesOpt : Option (List String))
    (weightOpt : Option String) (systematic_yields : List (String × ℚ)) :
    List (String × ℚ) :=
  match filesOpt with
  | none => systematic_yields
  | some files =>
    let additional_weight := weightOpt.getD "1"
    let combined_weight := "(" ++ nominal_weight ++ ")*(" ++ additional_weight ++ ")"
    let sys_yield := files.foldl (fun sy file_rel_path =>
      folders.foldl (fun sy folder =>
        sy + getD0 (calculate_yields acc
            (joinPath base_path folder (ensure_root_extension file_rel_path))
            [("nominal", combined_weight)]
            (adjust_selection_sample resolved selection folder)) "nominal") sy) 0
    setKey (sname ++ "_" ++ variation_type) sys_yield systematic_yields

/-- `process_sample_based_systematic` (renorm.py lines 108-150): the `up`
direction is handled first, then `down`. -/
def process_sample_based_systematic (acc : Accessor) (resolved : String)
    (s : SampleSystematic) (systematic_yields : List (String × ℚ))
    (base_path : String) (folders : List String)
    (nominal_weight selection : String) : List (String × ℚ) :=
  sample_direction acc resolved base_path folders nominal_weight selection
    s.name "down" s.down_files s.down_weight
    (sample_direction acc resolved base_path folders nominal_weight selection
      s.name "up" s.up_files s.up_weight systematic_yields)

/-! ### Source: `process_flavour` -/

/-- The nominal / weight-based pass of `process_flavour`
(renorm.py lines 159-175): merge, over every folder and every file of the
flavour, the yields of one `calculate_yields` call made with the full
named-weight-expression dict and the adjusted selection. -/
def nominal_pass (acc : Accessor) (resolved base_path : String)
    (folders files : List String) (selection : String)
    (weight_expressions : List (String × String)) : List (String × ℚ) :=
  folders.foldl (fun result folder =>
    files.foldl (fun result file_rel_path =>
      mergeY result (calculate_yields acc
        (joinPath base_path folder (ensure_root_extension file_rel_path))
        weight_expressions
        (adjust_selection_nominal resolved selection folder))) result) []

/-- One iteration of the loop at renorm.py lines 180-190: only systematics
with `type == "sample"` touch the systematic-yield dict. -/
def sample_pass_step (acc : Accessor) (resolved base_path : String)
    (folders : List String) (nominal_weight selection : String)
    (sy : List (String × ℚ)) : Systematic → List (String × ℚ)
  | Systematic.sample ss =>
      process_sample_based_systematic acc resolved ss sy base_path folders
        nominal_weight selection
  | Systematic.weight _ => sy

/-- The loop at renorm.py lines 180-190: apply each sample-type systematic
to the flavour's systematic-yield dict. -/
def sample_systematics_pass (acc : Accessor) (resolved base_path : String)
    (folders : List String) (nominal_weight selection : String)
    (systematics : List Systematic) (systematic_yields : List (String × ℚ)) :
    List (String × ℚ) :=
  systematics.foldl
    (sample_pass_step acc resolved base_path folders nominal_weight selection)
    systematic_yields

/-- `process_flavour` (renorm.py lines 152-192): build the weight
expressions, run the nominal pass, pop `"nominal"` (default 0) as the
nominal yield, then run the sample-based systematics. -/
def process_flavour (acc : Accessor) (resolved base_path : String)
    (folders : List String) (nominal_weight : String) (fc : FlavourConfig) :
    ℚ × List (String × ℚ) :=
  let weight_expressions := buildWeightExprs fc.systematics nominal_weight
  let result := nominal_pass acc resolved base_path folders fc.files
    fc.selection weight_expressions
  let nominal_yield := getD0 result "nominal"
  let systematic_yields := result.filter (fun p => p.1 != "nominal")
  (nominal_yield,
    sample_systematics_pass acc resolved base_path folders nominal_weight
      fc.selection fc.systematics systematic_yields)

/-! ### Source: the renormalisation step of `run` -/

/-- Python float division: `ZeroDivisionError` on a zero divisor. -/
def pydiv (a b : ℚ) : Except Unit ℚ :=
  if b = 0 then Except.error () else Except.ok (a / b)

/-- The expression at renorm.py lines 217 and 236:
`renorm = 1 / (sys_yield / nominal_yield) if nominal_yield else 0`. -/
def renorm (nominal_yield sys_yield : ℚ) : Except Unit ℚ :=
  if nominal_yield ≠ 0 then do
    let t ← pydiv sys_yield nominal_yield
    pydiv 1 t
  else Except.ok 0

/-- The renormalisation loop of `run` (renorm.py lines 234-237): build the
`renormalisations` dict entry by entry; an uncaught `ZeroDivisionError`
aborts the whole loop. Called with `renormalisations = []`. -/
def buildRenorms (nominal_yield : ℚ) :
    List (String × ℚ) → List (String × ℚ) → Except Unit (List (String × ℚ))
  | [], renormalisations => Except.ok renormalisations
  | p :: rest, renormalisations =>
    match renorm nominal_yield p.2 with
    | Except.error e => Except.error e
    | Except.ok r => buildRenorms nominal_yield rest (setKey p.1 r renormalisations)

/-! ### Source: `run` -/

/-- One entry of the `results` dict built by `run`. -/
structure FlavourResult where
  nominal : ℚ
  systematic_yields : List (String × ℚ)
  renormalisations : List (String × ℚ)
deriving DecidableEq

/-- The sequential branch of `run` (renorm.py lines 225-243): process each
flavour in turn, then compute its renormalisations. -/
def runSeqAux (acc : Accessor) (resolved base_path : String)
    (folders : List String) (nominal_weight : String) :
    List (String × FlavourConfig) → List (String × FlavourResult) →
    Except Unit (List (String × FlavourResult))
  | [], results => Except.ok results
  | p :: rest, results =>
    let nsys := process_flavour acc resolved base_path folders nominal_weight p.2
    match buildRenorms nsys.1 nsys.2 [] with
    | Except.error e => Except.error e
    | Except.ok renormalisations =>
        runSeqAux acc resolved base_path folders nominal_weight rest
          (setKey p.1 ⟨nsys.1, nsys.2, renormalisations⟩ results)

/-- The renormalisation loop of the parallel branch of `run`
(renorm.py lines 212-224): consume the zipped
`(flavour name, (nominal yield, systematic yields))` pairs. -/
def runParAux :
    List (String × (ℚ × List (String × ℚ))) → List (String × FlavourResult) →
    Except Unit (List (String × FlavourResult))
  | [], results => Except.ok results
  | q :: rest, results =>
    match buildRenorms q.2.1 q.2.2 [] with
    | Except.error e => Except.error e
    | Except.ok renormalisations =>
        runParAux rest (setKey q.1 ⟨q.2.1, q.2.2, renormalisations⟩ results)

/-- `run` (renorm.py lines 204-244): with `use_multiprocessing`, map
`process_flavour` over all flavour configs (the pool preserves input
order), zip the results with the flavour names, and compute the
renormalisations; otherwise iterate sequentially. -/
def runCalc (acc : Accessor) (resolved base_path : String)
    (folders : List String) (nominal_weight : String)
    (flavours : List (String × FlavourConfig)) (use_multiprocessing : Bool) :
    Except Unit (List (String × FlavourResult)) :=
  if use_multiprocessing then
    let flavour_results := flavours.map
      (fun p => process_flavour acc resolved base_path folders nominal_weight p.2)
    runParAux ((flavours.map Prod.fst).zip flavour_results) []
  else
    runSeqAux acc resolved base_path folders nominal_weight flavours []

/-! ### Source: configuration validation (`__init__`, `validate_config`) -/

/-- `required_keys` (renorm.py line 63). -/
def required_keys : List String :=
  ["base_path", "folders", "nominal_weight", "flavours"]

/-- `validate_config` (renorm.py lines 62-68) over the set of top-level
keys present in the parsed configuration. -/
def validate_config (config_keys : List String) : Bool :=
  required_keys.all (fun k => config_keys.contains k)

/-- `SystematicYieldCalc.__init__` (renorm.py lines 55-60): `read_config`
returns `None` (here `none`) for a missing, unreadable, malformed or empty
file; a `None` config or a failed validation raises `ValueError` before
anything else runs. -/
def calcInit (read_result : Option (List String)) : Except String (List String) :=
  match read_result with
  | none => Except.error "Failed to load configuration."
  | some config_keys =>
    if validate_config config_keys then Except.ok config_keys
    else Except.error "Configuration validation failed."

/-! ### Deep embedding of the renormalisation expression (for its shape) -/

/-- Arithmetic expressions over the two run-step variables. -/
inductive RenormExpr : Type
  | num : ℚ → RenormExpr
  | sysYield : RenormExpr
  | nominalYield : RenormExpr
  | div : RenormExpr → RenormExpr → RenormExpr
deriving DecidableEq

/-- The number of division operations an expression performs. -/
def RenormExpr.divCount : RenormExpr → Nat
  | RenormExpr.num _ => 0
  | RenormExpr.sysYield => 0
  | RenormExpr.nominalYield => 0
  | RenormExpr.div a b => RenormExpr.divCount a + RenormExpr.divCount b + 1

/-- Evaluation with Python division semantics. -/
def RenormExpr.evalE (sys_yield nominal_yield : ℚ) : RenormExpr → Except Unit ℚ
  | RenormExpr.num q => Except.ok q
  | RenormExpr.sysYield => Except.ok sys_yield
  | RenormExpr.nominalYield => Except.ok nominal_yield
  | RenormExpr.div a b => do
      let x ← RenormExpr.evalE sys_yield nominal_yield a
      let y ← RenormExpr.evalE sys_yield nominal_yield b
      pydiv x y

/-- The expression the source evaluates on the nonzero-nominal branch
(renorm.py line 236): `1 / (sys_yield / nominal_yield)`. -/
def renormExprCode : RenormExpr :=
  RenormExpr.div (RenormExpr.num 1)
    (RenormExpr.div RenormExpr.sysYield RenormExpr.nominalYield)

/-- Modelled from the spec: "compute as a single division of
`nominal_yield` by `y_k`". -/
def renormExprSingleDiv : RenormExpr :=
  RenormExpr.div RenormExpr.nominalYield RenormExpr.sysYield

/-! ### Spec-side reference quantities -/

/-- Modelled from the spec: "the sum, over all partitions and files of the
flavour, of `sum_weighted` evaluated with weight = nominal × up(or
down)-factor under the same effective selection used for the nominal
pass". -/
def specWeightYield (acc : Accessor) (resolved base_path selection expr : String)
    (folders files : List String) : ℚ :=
  (folders.map (fun folder =>
    ((files.map (fun file =>
      acc (joinPath base_path folder (ensure_root_extension file))
        (adjust_selection_nominal resolved selection folder) expr)).sum))).sum

/-- The total a sample-based direction accumulates: the sum over the
direction's files and all folders of the accessor sum with weight
`(nominal_weight)*(additional_weight)` under the sample-pass selection. -/
def sampleDirTotal (acc : Accessor)
    (resolved base_path nominal_weight selection addWeight : String)
    (folders files : List String) : ℚ :=
  (files.map (fun file =>
    ((folders.map (fun folder =>
      acc (joinPath base_path folder (ensure_root_extension file))
        (adjust_selection_sample resolved selection folder)
        ("(" ++ nominal_weight ++ ")*(" ++ addWeight ++ ")"))).sum))).sum

/-! ### Concrete inputs used by the witnesses -/

/-- A concrete dataset accessor for witnesses. -/
def accW : Accessor := fun path selection wexpr =>
  (path.length : ℚ) + 2 * (selection.length : ℚ) + 3 * (wexpr.length : ℚ)

/-- A concrete weight-based systematic. -/
def wsysJes : WeightSystematic := ⟨"jes", "1.1", "0.9"⟩

/-- A concrete sample-based systematic with only `up_files` configured. -/
def ssampMod : SampleSystematic := ⟨"mod", some ["alt"], none, none, none⟩

/-- A concrete flavour configuration. -/
def fcW : FlavourConfig :=
  ⟨"sel", ["f1"], [Systematic.weight wsysJes, Systematic.sample ssampMod]⟩

/-! ## Facts about the dict primitives -/

theorem keysS_nil {α : Type} : keysS ([] : List (String × α)) = [] := rfl

theorem keysS_cons {α : Type} (p : String × α) (t : List (String × α)) :
    keysS (p :: t) = p.1 :: keysS t := rfl

theorem setKey_nil {α : Type} (k : String) (v : α) : setKey k v [] = [(k, v)] := rfl

theorem setKey_cons_eq {α : Type} (k : String) (v : α) (p : String × α)
    (t : List (String × α)) (hp : p.1 = k) : setKey k v (p :: t) = (k, v) :: t := by
  simp [setKey, hp]

theorem setKey_cons_ne {α : Type} (k : String) (v : α) (p : String × α)
    (t : List (String × α)) (hp : ¬p.1 = k) :
    setKey k v (p :: t) = p :: setKey k v t := by
  simp [setKey, hp]

theorem lkp_setKey_self {α : Type} (k : String) (v : α) (m : List (String × α)) :
    lkp k (setKey k v m) = some v := by
  induction m with
  | nil => simp [setKey_nil, lkp]
  | cons p t ih =>
    by_cases h : p.1 = k
    · rw [setKey_cons_eq k v p t h]; simp [lkp]
    · rw [setKey_cons_ne k v p t h]; simp [lkp, h, ih]

theorem lkp_setKey_ne {α : Type} (k k' : String) (v : α) (m : List (String × α))
    (h : k' ≠ k) : lkp k' (setKey k v m) = lkp k' m := by
  induction m with
  | nil => simp [setKey_nil, lkp, Ne.symm h]
  | cons p t ih =>
    by_cases hp : p.1 = k
    · rw [setKey_cons_eq k v p t hp]
      simp [lkp, Ne.symm h, hp]
    · rw [setKey_cons_ne k v p t hp]
      simp [lkp, ih]

theorem mem_keysS_iff_lkp {α : Type} (k : String) (m : List (String × α)) :
    k ∈ keysS m ↔ (lkp k m).isSome := by
  induction m with
  | nil => simp [keysS_nil, lkp]
  | cons p t ih =>
    rw [keysS_cons, List.mem_cons]
    by_cases hp : p.1 = k
    · simp [lkp, hp]
    · simp [lkp, hp, Ne.symm hp, ih]

theorem lkp_eq_none_iff {α : Type} (k : String) (m : List (String × α)) :
    lkp k m = none ↔ k ∉ keysS m := by
  rw [mem_keysS_iff_lkp]
  cases h : lkp k m <;> simp [h]

theorem mem_keysS_setKey {α : Type} (k k' : String) (v : α) (m : List (String × α)) :
    k' ∈ keysS (setKey k v m) ↔ k' ∈ keysS m ∨ k' = k := by
  induction m with
  | nil => simp [setKey_nil, keysS_nil, keysS_cons, eq_comm]
  | cons p t ih =>
    by_cases hp : p.1 = k
    · rw [setKey_cons_eq k v p t hp, keysS_cons, keysS_cons, List.mem_cons,
        List.mem_cons, hp]
      tauto
    · rw [setKey_cons_ne k v p t hp, keysS_cons, keysS_cons, List.mem_cons,
        List.mem_cons, ih]
      tauto

theorem nodup_keysS_setKey {α : Type} (k : String) (v : α) (m : List (String × α))
    (h : (keysS m).Nodup) : (keysS (setKey k v m)).Nodup := by
  induction m with
  | nil => simp [setKey_nil, keysS_cons, keysS_nil]
  | cons p t ih =>
    rw [keysS_cons, List.nodup_cons] at h
    by_cases hp : p.1 = k
    · rw [setKey_cons_eq k v p t hp, keysS_cons, List.nodup_cons]
      refine ⟨?_, h.2⟩
      rw [← hp]
      exact h.1
    · rw [setKey_cons_ne k v p t hp, keysS_cons, List.nodup_cons]
      refine ⟨?_, ih h.2⟩
      intro hmem
      rcases (mem_keysS_setKey k p.1 v t).mp hmem with h1 | h1
      · exact h.1 h1
      · exact hp h1

theorem keysS_setKey_of_mem {α : Type} (k : String) (v : α) (m : List (String × α))
    (h : k ∈ keysS m) : keysS (setKey k v m) = keysS m := by
  induction m with
  | nil => simp [keysS_nil] at h
  | cons p t ih =>
    rw [keysS_cons, List.mem_cons] at h
    by_cases hp : p.1 = k
    · rw [setKey_cons_eq k v p t hp, keysS_cons, keysS_cons, hp]
    · have hk : k ∈ keysS t := by
        rcases h with h1 | h1
        · exact absurd h1.symm hp
        · exact h1
      rw [setKey_cons_ne k v p t hp, keysS_cons, keysS_cons, ih hk]

theorem keysS_setKey_of_not_mem {α : Type} (k : String) (v : α)
    (m : List (String × α)) (h : k ∉ keysS m) :
    keysS (setKey k v m) = keysS m ++ [k] := by
  induction m with
  | nil => simp [setKey_nil, keysS_nil, keysS_cons]
  | cons p t ih =>
    rw [keysS_cons, List.mem_cons] at h
    push_neg at h
    have hp : ¬p.1 = k := fun hh => h.1 hh.symm
    rw [setKey_cons_ne k v p t hp, keysS_cons, keysS_cons, ih h.2,
      List.cons_append]

/-! ## Facts about the string primitives -/

theorem data_append (s t : String) : (s ++ t).data = s.data ++ t.data := by
  cases s; cases t; rfl

theorem str_eq_of_data {s t : String} (h : s.data = t.data) : s = t := by
  cases s with
  | mk d1 =>
    cases t with
    | mk d2 => exact congrArg String.mk h

theorem startsWithL_append_self (p r : List Char) : startsWithL p (p ++ r) = true := by
  induction p with
  | nil => rfl
  | cons c cs ih => simp [startsWithL, ih]

theorem ends_with_append_self (x t : List Char) : ends_with (x ++ t) t = true := by
  simp [ends_with, List.reverse_append, startsWithL_append_self]

theorem append_ne_of_data_length {a b : String} (h : a.data.length ≠ b.data.length)
    (s : String) : s ++ a ≠ s ++ b := by
  intro heq
  apply h
  have h2 := congrArg (fun x => x.data.length) heq
  simpa [data_append] using h2

theorem append_right_ne_self {s r : String} (h : r ≠ "") : s ++ r ≠ s := by
  intro heq
  apply h
  have h2 : (s ++ r).data.length = s.data.length := by rw [heq]
  rw [data_append, List.length_append] at h2
  have h3 : r.data = [] := List.length_eq_zero.mp (by omega)
  exact str_eq_of_data (by simp [h3])

/-- C10: `ensure_root_extension` always returns a string ending in
`".root"`; it returns its input unchanged exactly when the input already
ends in `".root"` and appends `".root"` otherwise, hence it is
idempotent. -/
theorem C10_ensure_root_extension (s : String) :
    ends_with (ensure_root_extension s).data ".root".data = true ∧
    (ends_with s.data ".root".data = true → ensure_root_extension s = s) ∧
    (ends_with s.data ".root".data = false → ensure_root_extension s = s ++ ".root") ∧
    ensure_root_extension (ensure_root_extension s) = ensure_root_extension s := by
  have hra : ∀ x : String, ends_with (x ++ ".root").data ".root".data = true := by
    intro x; rw [data_append]; exact ends_with_append_self _ _
  cases h : ends_with s.data ".root".data with
  | true => refine ⟨?_, ?_, ?_, ?_⟩ <;> simp [ensure_root_extension, h]
  | false =>
    have e1 : ensure_root_extension s = s ++ ".root" := by
      simp [ensure_root_extension, h]
    refine ⟨?_, ?_, ?_, ?_⟩
    · rw [e1]; exact hra s
    · intro hh; simp [h] at hh
    · intro _; exact e1
    · rw [e1]
      show ensure_root_extension (s ++ ".root") = s ++ ".root"
      unfold ensure_root_extension
      rw [hra s]
      simp

/-- C10 witness: concrete instances of the conditional clauses. -/
theorem C10_witness :
    ensure_root_extension "data/file" = "data/file" ++ ".root" ∧
    ensure_root_extension "file.root" = "file.root" := by
  constructor
  · exact (C10_ensure_root_extension "data/file").2.2.1 (by decide)
  · exact (C10_ensure_root_extension "file.root").2.1 (by decide)

/-! ## Facts about `YieldResult.merge` -/

theorem mergeY_nil (A : List (String × ℚ)) : mergeY A [] = A := rfl

theorem mergeY_cons (A : List (String × ℚ)) (p : String × ℚ)
    (t : List (String × ℚ)) :
    mergeY A (p :: t) = mergeY (setKey p.1 (getD0 A p.1 + p.2) A) t := rfl

theorem getD0_nil (k : String) : getD0 [] k = 0 := rfl

theorem getD0_cons_eq (p : String × ℚ) (t : List (String × ℚ)) (k : String)
    (h : p.1 = k) : getD0 (p :: t) k = p.2 := by simp [getD0, lkp, h]

theorem getD0_cons_ne (p : String × ℚ) (t : List (String × ℚ)) (k : String)
    (h : ¬p.1 = k) : getD0 (p :: t) k = getD0 t k := by simp [getD0, lkp, h]

theorem getD0_setKey_self (k : String) (v : ℚ) (m : List (String × ℚ)) :
    getD0 (setKey k v m) k = v := by simp [getD0, lkp_setKey_self]

theorem getD0_setKey_ne (k k' : String) (v : ℚ) (m : List (String × ℚ))
    (h : k' ≠ k) : getD0 (setKey k v m) k' = getD0 m k' := by
  simp [getD0, lkp_setKey_ne k k' v m h]

theorem getD0_of_not_mem (k : String) (m : List (String × ℚ))
    (h : k ∉ keysS m) : getD0 m k = 0 := by
  simp [getD0, (lkp_eq_none_iff k m).mpr h]

theorem getD0_mergeY (A B : List (String × ℚ)) (k : String)
    (hB : (keysS B).Nodup) : getD0 (mergeY A B) k = getD0 A k + getD0 B k := by
  induction B generalizing A with
  | nil => simp [mergeY_nil, getD0_nil]
  | cons p t ih =>
    rw [keysS_cons, List.nodup_cons] at hB
    rw [mergeY_cons, ih _ hB.2]
    by_cases hk : k = p.1
    · subst hk
      rw [getD0_setKey_self, getD0_of_not_mem p.1 t hB.1,
        getD0_cons_eq p t p.1 rfl]
      ring
    · rw [getD0_setKey_ne p.1 k _ A (by exact hk),
        getD0_cons_ne p t k (fun hh => hk hh.symm)]

theorem mem_keysS_mergeY (A B : List (String × ℚ)) (k : String) :
    k ∈ keysS (mergeY A B) ↔ k ∈ keysS A ∨ k ∈ keysS B := by
  induction B generalizing A with
  | nil => simp [mergeY_nil, keysS_nil]
  | cons p t ih =>
    rw [mergeY_cons, ih, mem_keysS_setKey, keysS_cons, List.mem_cons]
    tauto

theorem nodup_keysS_mergeY (A B : List (String × ℚ))
    (hA : (keysS A).Nodup) : (keysS (mergeY A B)).Nodup := by
  induction B generalizing A with
  | nil => simpa [mergeY_nil]
  | cons p t ih =>
    rw [mergeY_cons]
    exact ih _ (nodup_keysS_setKey _ _ _ hA)

theorem lkp_eq_getD0 {m : List (String × ℚ)} {k : String} (h : k ∈ keysS m) :
    lkp k m = some (getD0 m k) := by
  rw [mem_keysS_iff_lkp] at h
  cases hh : lkp k m with
  | none => rw [hh] at h; simp at h
  | some v => simp [getD0, hh]

theorem lkp_ite_getD0 (X : List (String × ℚ)) (k : String) :
    lkp k X = if k ∈ keysS X then some (getD0 X k) else none := by
  by_cases h : k ∈ keysS X
  · rw [if_pos h]; exact lkp_eq_getD0 h
  · rw [if_neg h]; exact (lkp_eq_none_iff k X).mpr h

/-- C5: `YieldResult.merge` is commutative and associative as pointwise
addition with missing keys treated as 0 (up to Python dict equality `==`),
and merging never loses a key present in either operand. -/
theorem C5_merge_comm_assoc (A B C : List (String × ℚ))
    (hA : (keysS A).Nodup) (hB : (keysS B).Nodup) (hC : (keysS C).Nodup) :
    dictEq (mergeY A B) (mergeY B A) ∧
    dictEq (mergeY (mergeY A B) C) (mergeY A (mergeY B C)) ∧
    (∀ k, k ∈ keysS A ∨ k ∈ keysS B → k ∈ keysS (mergeY A B)) := by
  refine ⟨?_, ?_, ?_⟩
  · intro k
    rw [lkp_ite_getD0, lkp_ite_getD0]
    by_cases h : k ∈ keysS A ∨ k ∈ keysS B
    · rw [if_pos ((mem_keysS_mergeY A B k).mpr h),
        if_pos ((mem_keysS_mergeY B A k).mpr (Or.symm h)),
        getD0_mergeY A B k hB, getD0_mergeY B A k hA]
      rw [add_comm]
    · rw [if_neg (fun hm => h ((mem_keysS_mergeY A B k).mp hm)),
        if_neg (fun hm => h (Or.symm ((mem_keysS_mergeY B A k).mp hm)))]
  · intro k
    have m1 : k ∈ keysS (mergeY (mergeY A B) C) ↔
        k ∈ keysS A ∨ k ∈ keysS B ∨ k ∈ keysS C := by
      rw [mem_keysS_mergeY, mem_keysS_mergeY]; tauto
    have m2 : k ∈ keysS (mergeY A (mergeY B C)) ↔
        k ∈ keysS A ∨ k ∈ keysS B ∨ k ∈ keysS C := by
      rw [mem_keysS_mergeY, mem_keysS_mergeY]
    rw [lkp_ite_getD0, lkp_ite_getD0]
    by_cases h : k ∈ keysS A ∨ k ∈ keysS B ∨ k ∈ keysS C
    · rw [if_pos (m1.mpr h), if_pos (m2.mpr h)]
      rw [getD0_mergeY _ C k hC, getD0_mergeY A B k hB,
        getD0_mergeY A _ k (nodup_keysS_mergeY B C hB),
        getD0_mergeY B C k hC]
      rw [add_assoc]
    · rw [if_neg (fun hm => h (m1.mp hm)), if_neg (fun hm => h (m2.mp hm))]
  · intro k hk
    exact (mem_keysS_mergeY A B k).mpr hk

/-- C5 witness: the merge properties at concrete accumulators. -/
theorem C5_witness :
    dictEq (mergeY [("a", (1 : ℚ))] [("a", 2), ("b", 3)])
      (mergeY [("a", 2), ("b", 3)] [("a", (1 : ℚ))]) ∧
    dictEq (mergeY (mergeY [("a", (1 : ℚ))] [("a", 2), ("b", 3)]) [("b", 5)])
      (mergeY [("a", (1 : ℚ))] (mergeY [("a", 2), ("b", 3)] [("b", 5)])) ∧
    (∀ k, k ∈ keysS [("a", (1 : ℚ))] ∨ k ∈ keysS [("a", (2 : ℚ)), ("b", 3)] →
      k ∈ keysS (mergeY [("a", (1 : ℚ))] [("a", 2), ("b", 3)])) :=
  C5_merge_comm_assoc _ _ _ (by decide) (by decide) (by decide)

/-! ## The renormalisation step -/

theorem except_ok_bind {ε α β : Type} (a : α) (f : α → Except ε β) :
    (Except.ok a : Except ε α) >>= f = f a := rfl

theorem renorm_of_ne (nominal_yield sys_yield : ℚ) (hn : nominal_yield ≠ 0)
    (hy : sys_yield ≠ 0) :
    renorm nominal_yield sys_yield =
      Except.ok (1 / (sys_yield / nominal_yield)) := by
  have hdiv : sys_yield / nominal_yield ≠ 0 := div_ne_zero hy hn
  simp [renorm, hn, pydiv, hdiv, except_ok_bind, one_div]

/-- C1 counterexample (to the claim's description of the computation): the
expression the source evaluates is `1 / (sys_yield / nominal_yield)`,
which performs two divisions, not the single division
`nominal_yield / y_k` the claim prescribes. -/
theorem C1_counterexample :
    renormExprCode ≠ renormExprSingleDiv ∧
    RenormExpr.divCount renormExprCode = 2 ∧
    RenormExpr.divCount renormExprSingleDiv = 1 := by
  refine ⟨?_, rfl, rfl⟩
  intro h
  simp [renormExprCode, renormExprSingleDiv] at h

/-- C1 amended: the stored factor is computed as
`1 / (y_k / nominal_yield)` (two divisions); in exact arithmetic, whenever
the nominal yield and the variation yield are both nonzero, its value
still equals `nominal_yield / y_k` and satisfies
`renorm_k * y_k = nominal_yield`. -/
theorem C1_renorm_value (nominal_yield sys_yield : ℚ)
    (hn : nominal_yield ≠ 0) (hy : sys_yield ≠ 0) :
    renorm nominal_yield sys_yield =
      Except.ok (nominal_yield / sys_yield) ∧
    (nominal_yield / sys_yield) * sys_yield = nominal_yield ∧
    RenormExpr.evalE sys_yield nominal_yield renormExprCode =
      renorm nominal_yield sys_yield := by
  have hdiv : sys_yield / nominal_yield ≠ 0 := div_ne_zero hy hn
  have e1 := renorm_of_ne nominal_yield sys_yield hn hy
  have e2 : 1 / (sys_yield / nominal_yield) = nominal_yield / sys_yield :=
    one_div_div sys_yield nominal_yield
  refine ⟨by rw [e1, e2], div_mul_cancel₀ nominal_yield hy, ?_⟩
  rw [e1]
  simp [RenormExpr.evalE, renormExprCode, pydiv, hn, hdiv, except_ok_bind,
    one_div]

/-- C1 witness: the amended statement at nominal yield 100 and variation
yield 108. -/
theorem C1_witness :
    renorm 100 108 = Except.ok ((100 : ℚ) / 108) ∧
    ((100 : ℚ) / 108) * 108 = 100 ∧
    RenormExpr.evalE 108 100 renormExprCode = renorm 100 108 :=
  C1_renorm_value 100 108 (by norm_num) (by norm_num)

/-- C2: at the renormalisation step of `run`, a variation yield of exactly
0 with a nonzero nominal yield makes the loop raise an uncaught
`ZeroDivisionError` (from `1 / (0 / nominal)`), aborting the remaining
variations as well — nothing catches it or surfaces "not applicable". -/
theorem C2_zero_yield_uncaught :
    buildRenorms 100 [("jes_up", 0), ("ft_up", 50)] [] = Except.error () := by
  have h1 : renorm 100 0 = Except.error () := by
    have h100 : (100 : ℚ) ≠ 0 := by norm_num
    simp [renorm, pydiv, h100, except_ok_bind]
  simp [buildRenorms, h1]

/-! ## C3: zero nominal yield -/

theorem renorm_zero (sys_yield : ℚ) : renorm 0 sys_yield = Except.ok 0 := by
  simp [renorm]

theorem buildRenorms_zero_aux (sys : List (String × ℚ))
    (r0 : List (String × ℚ)) :
    ∃ r, buildRenorms 0 sys r0 = Except.ok r ∧
      (∀ k, k ∈ keysS sys → lkp k r = some 0) ∧
      (∀ k, k ∉ keysS sys → lkp k r = lkp k r0) := by
  induction sys generalizing r0 with
  | nil =>
    exact ⟨r0, rfl, fun k hk => by simp [keysS_nil] at hk, fun k _ => rfl⟩
  | cons p t ih =>
    obtain ⟨r, hr, hmem, hfroz⟩ := ih (setKey p.1 0 r0)
    refine ⟨r, ?_, ?_, ?_⟩
    · rw [buildRenorms, renorm_zero]
      exact hr
    · intro k hk
      rw [keysS_cons, List.mem_cons] at hk
      by_cases hkt : k ∈ keysS t
      · exact hmem k hkt
      · rcases hk with hk | hk
        · rw [hfroz k hkt, hk, lkp_setKey_self]
        · exact absurd hk hkt
    · intro k hk
      rw [keysS_cons, List.mem_cons] at hk
      push_neg at hk
      rw [hfroz k hk.2, lkp_setKey_ne p.1 k 0 r0 hk.1]

/-- C3: when a flavour's nominal yield is exactly 0, the renormalisation
loop of `run` succeeds (no error) and assigns factor 0 to every
systematic variation key, regardless of the variation yields. -/
theorem C3_zero_nominal (nominal_yield : ℚ) (sys : List (String × ℚ))
    (h : nominal_yield = 0) :
    ∃ r, buildRenorms nominal_yield sys [] = Except.ok r ∧
      ∀ k, k ∈ keysS sys → lkp k r = some 0 := by
  subst h
  obtain ⟨r, hr, hmem, _⟩ := buildRenorms_zero_aux sys []
  exact ⟨r, hr, hmem⟩

/-- C3 witness: zero nominal yield with a zero variation yield present —
both factors are 0 and no error is raised. -/
theorem C3_witness :
    ∃ r, buildRenorms 0 [("jes_up", (7 : ℚ)), ("jes_down", 0)] [] = Except.ok r ∧
      ∀ k, k ∈ keysS [("jes_up", (7 : ℚ)), ("jes_down", 0)] → lkp k r = some 0 :=
  C3_zero_nominal 0 [("jes_up", (7 : ℚ)), ("jes_down", 0)] rfl

/-! ## C4: selection composition -/

/-- C4 counterexample: for the partition `"2l_e"` (which contains `"2l_"`
but not `"boosted"`), the sample-based pass appends the resolved clause
while the nominal/weight-based pass leaves the selection unchanged — so
the appending rule does not hold in every dataset pass alike. -/
theorem C4_counterexample :
    adjust_selection_sample "&&res" "sel" "2l_e" = "sel" ++ "&&res" ∧
    adjust_selection_nominal "&&res" "sel" "2l_e" = "sel" ∧
    adjust_selection_sample "&&res" "sel" "2l_e" ≠
      adjust_selection_nominal "&&res" "sel" "2l_e" := by
  refine ⟨?_, ?_, ?_⟩ <;> decide

/-- C4 amended: in the nominal/weight-based pass the resolved clause is
appended exactly when the partition name contains neither `"boosted"` nor
`"2l_"` (otherwise the selection is unchanged); in the sample-based pass
it is appended exactly when the partition name does not contain
`"boosted"` — the `"2l_"` check is absent there. -/
theorem C4_selection_rules (resolved selection folder : String)
    (h : resolved ≠ "") :
    (adjust_selection_nominal resolved selection folder = selection ++ resolved
      ↔ strContains folder "boosted" = false ∧ strContains folder "2l_" = false) ∧
    (adjust_selection_nominal resolved selection folder = selection
      ↔ ¬(strContains folder "boosted" = false ∧ strContains folder "2l_" = false)) ∧
    (adjust_selection_sample resolved selection folder = selection ++ resolved
      ↔ strContains folder "boosted" = false) ∧
    (adjust_selection_sample resolved selection folder = selection
      ↔ strContains folder "boosted" = true) := by
  have hne : selection ++ resolved ≠ selection := append_right_ne_self h
  cases hb : strContains folder "boosted" <;>
    cases h2 : strContains folder "2l_" <;>
      simp [adjust_selection_nominal, adjust_selection_sample, hb, h2, hne,
        Ne.symm hne]

/-- C4 witness: the amended rules at a partition matching neither
pattern. -/
theorem C4_witness :
    (adjust_selection_nominal "&&res" "s" "lep" = "s" ++ "&&res"
      ↔ strContains "lep" "boosted" = false ∧ strContains "lep" "2l_" = false) ∧
    (adjust_selection_nominal "&&res" "s" "lep" = "s"
      ↔ ¬(strContains "lep" "boosted" = false ∧ strContains "lep" "2l_" = false)) ∧
    (adjust_selection_sample "&&res" "s" "lep" = "s" ++ "&&res"
      ↔ strContains "lep" "boosted" = false) ∧
    (adjust_selection_sample "&&res" "s" "lep" = "s"
      ↔ strContains "lep" "boosted" = true) :=
  C4_selection_rules "&&res" "s" "lep" (by decide)

/-! ## The weight-expression dict built by `process_flavour` -/

theorem systWeightKeys_weight_cons (w : WeightSystematic) (t : List Systematic) :
    systWeightKeys (Systematic.weight w :: t) =
      (w.name ++ "_up") :: (w.name ++ "_down") :: systWeightKeys t := rfl

theorem systWeightKeys_sample_cons (s : SampleSystematic) (t : List Systematic) :
    systWeightKeys (Systematic.sample s :: t) = systWeightKeys t := rfl

theorem mem_systWeightKeys {w : WeightSystematic} {ss : List Systematic}
    (hw : Systematic.weight w ∈ ss) :
    (w.name ++ "_up") ∈ systWeightKeys ss ∧
    (w.name ++ "_down") ∈ systWeightKeys ss := by
  induction ss with
  | nil => simp at hw
  | cons s t ih =>
    rcases List.mem_cons.mp hw with hh | hh
    · rw [← hh, systWeightKeys_weight_cons]
      exact ⟨List.mem_cons_self _ _, List.mem_cons_of_mem _ (List.mem_cons_self _ _)⟩
    · cases s with
      | weight v =>
        rw [systWeightKeys_weight_cons]
        exact ⟨List.mem_cons_of_mem _ (List.mem_cons_of_mem _ (ih hh).1),
          List.mem_cons_of_mem _ (List.mem_cons_of_mem _ (ih hh).2)⟩
      | sample v => rw [systWeightKeys_sample_cons]; exact ih hh

theorem weFold_frozen (ss : List Systematic) (we0 : List (String × String))
    (k : String) (hk : k ∉ systWeightKeys ss) :
    lkp k (ss.foldl weight_exprs_step we0) = lkp k we0 := by
  induction ss generalizing we0 with
  | nil => rfl
  | cons s t ih =>
    cases s with
    | weight w =>
      rw [systWeightKeys_weight_cons, List.mem_cons, List.mem_cons] at hk
      push_neg at hk
      rw [List.foldl_cons]
      rw [ih _ hk.2.2]
      show lkp k (process_weight_based_systematic w we0) = lkp k we0
      simp only [process_weight_based_systematic]
      rw [lkp_setKey_ne _ _ _ _ hk.2.1, lkp_setKey_ne _ _ _ _ hk.1]
    | sample v =>
      rw [systWeightKeys_sample_cons] at hk
      rw [List.foldl_cons]
      exact ih _ hk

theorem weFold_spec (ss : List Systematic) (we0 : List (String × String))
    (hnom : "nominal" ∈ keysS we0)
    (hnd : (keysS we0 ++ systWeightKeys ss).Nodup) :
    keysS (ss.foldl weight_exprs_step we0) = keysS we0 ++ systWeightKeys ss ∧
    ∀ w : WeightSystematic, Systematic.weight w ∈ ss →
      lkp (w.name ++ "_up") (ss.foldl weight_exprs_step we0) =
        some ("(" ++ (lkp "nominal" we0).getD "" ++ ")*(" ++ w.up_weight ++ ")") ∧
      lkp (w.name ++ "_down") (ss.foldl weight_exprs_step we0) =
        some ("(" ++ (lkp "nominal" we0).getD "" ++ ")*(" ++ w.down_weight ++ ")") := by
  induction ss generalizing we0 with
  | nil =>
    refine ⟨by simp [systWeightKeys], ?_⟩
    intro w hw
    simp at hw
  | cons s t ih =>
    cases s with
    | sample v =>
      rw [systWeightKeys_sample_cons] at hnd ⊢
      rw [List.foldl_cons]
      obtain ⟨hkeys, hlook⟩ := ih we0 hnom hnd
      refine ⟨hkeys, ?_⟩
      intro w hw
      rcases List.mem_cons.mp hw with hh | hh
      · cases hh
      · exact hlook w hh
    | weight w0 =>
      rw [systWeightKeys_weight_cons] at hnd ⊢
      have hnd_orig := hnd
      rw [List.nodup_append] at hnd
      obtain ⟨hnd0, hndk, hdisj⟩ := hnd
      rw [List.nodup_cons] at hndk
      obtain ⟨hup_rest, hndk2⟩ := hndk
      rw [List.nodup_cons] at hndk2
      obtain ⟨hdown_rest, hndt⟩ := hndk2
      rw [List.mem_cons] at hup_rest
      push_neg at hup_rest
      have hupne : w0.name ++ "_up" ≠ w0.name ++ "_down" := hup_rest.1
      have hupt : w0.name ++ "_up" ∉ systWeightKeys t := hup_rest.2
      have hup0 : w0.name ++ "_up" ∉ keysS we0 := fun hm =>
        hdisj hm (List.mem_cons_self _ _)
      have hdown0 : w0.name ++ "_down" ∉ keysS we0 := fun hm =>
        hdisj hm (List.mem_cons_of_mem _ (List.mem_cons_self _ _))
      have hnomup : "nominal" ≠ w0.name ++ "_up" := fun hh => hup0 (hh ▸ hnom)
      have hnomdown : "nominal" ≠ w0.name ++ "_down" := fun hh => hdown0 (hh ▸ hnom)
      -- the dict after this systematic
      set eUp := "(" ++ (lkp "nominal" we0).getD "" ++ ")*(" ++ w0.up_weight ++ ")"
        with heUp
      set we1 := process_weight_based_systematic w0 we0 with hwe1
      have hstep : weight_exprs_step we0 (Systematic.weight w0) = we1 := rfl
      have hnom_mid :
          lkp "nominal" (setKey (w0.name ++ "_up") eUp we0) = lkp "nominal" we0 :=
        lkp_setKey_ne _ _ _ _ hnomup
      have hwe1eq : we1 = setKey (w0.name ++ "_down")
          ("(" ++ (lkp "nominal" we0).getD "" ++ ")*(" ++ w0.down_weight ++ ")")
          (setKey (w0.name ++ "_up") eUp we0) := by
        rw [hwe1]
        simp only [process_weight_based_systematic, hnom_mid, heUp]
      have hdown_mid : w0.name ++ "_down" ∉ keysS (setKey (w0.name ++ "_up") eUp we0) := by
        rw [keysS_setKey_of_not_mem _ _ _ hup0, List.mem_append, List.mem_singleton]
        push_neg
        exact ⟨hdown0, fun hh => hupne hh.symm⟩
      have hkeys1 : keysS we1 = keysS we0 ++
          [w0.name ++ "_up", w0.name ++ "_down"] := by
        rw [hwe1eq, keysS_setKey_of_not_mem _ _ _ hdown_mid,
          keysS_setKey_of_not_mem _ _ _ hup0, List.append_assoc]
        rfl
      have hnom1 : "nominal" ∈ keysS we1 := by
        rw [hkeys1]
        exact List.mem_append_left _ hnom
      have hnomval : lkp "nominal" we1 = lkp "nominal" we0 := by
        rw [hwe1eq, lkp_setKey_ne _ _ _ _ hnomdown, lkp_setKey_ne _ _ _ _ hnomup]
      have hnd1 : (keysS we1 ++ systWeightKeys t).Nodup := by
        rw [hkeys1, List.append_assoc]
        exact hnd_orig
      obtain ⟨hkeysT, hlookT⟩ := ih we1 hnom1 hnd1
      rw [List.foldl_cons, hstep]
      constructor
      · rw [hkeysT, hkeys1, List.append_assoc]
        rfl
      · intro w hw
        rcases List.mem_cons.mp hw with hh | hh
        · -- the systematic at the head of the list
          have hw0 : w = w0 := by injection hh
          subst hw0
          constructor
          · rw [weFold_frozen t we1 _ hupt, hwe1eq,
              lkp_setKey_ne _ _ _ _ hupne, lkp_setKey_self]
          · rw [weFold_frozen t we1 _ hdown_rest, hwe1eq, lkp_setKey_self]
        · have hres := hlookT w hh
          rw [hnomval] at hres
          exact hres

theorem buildWeightExprs_spec (ss : List Systematic) (nominal_weight : String)
    (hnd : ("nominal" :: systWeightKeys ss).Nodup) :
    keysS (buildWeightExprs ss nominal_weight) = "nominal" :: systWeightKeys ss ∧
    ∀ w : WeightSystematic, Systematic.weight w ∈ ss →
      lkp (w.name ++ "_up") (buildWeightExprs ss nominal_weight) =
        some ("(" ++ nominal_weight ++ ")*(" ++ w.up_weight ++ ")") ∧
      lkp (w.name ++ "_down") (buildWeightExprs ss nominal_weight) =
        some ("(" ++ nominal_weight ++ ")*(" ++ w.down_weight ++ ")") := by
  have h0 : keysS [("nominal", nominal_weight)] = ["nominal"] := rfl
  have hnom : "nominal" ∈ keysS [("nominal", nominal_weight)] := by
    rw [h0]; exact List.mem_singleton.mpr rfl
  have hnd' : (keysS [("nominal", nominal_weight)] ++ systWeightKeys ss).Nodup := by
    rw [h0]; exact hnd
  obtain ⟨hkeys, hlook⟩ := weFold_spec ss [("nominal", nominal_weight)] hnom hnd'
  have hnomval : lkp "nominal" [("nominal", nominal_weight)] = some nominal_weight := by
    simp [lkp]
  constructor
  · rw [buildWeightExprs, hkeys, h0]
    rfl
  · intro w hw
    have := hlook w hw
    rw [hnomval] at this
    exact this

/-! ## `calculate_yields` -/

theorem cyFold_spec (acc : Accessor) (path sel : String)
    (we : List (String × String)) (r0 : List (String × ℚ))
    (hnd : (keysS r0 ++ keysS we).Nodup) :
    keysS (we.foldl (fun result p => setKey p.1 (acc path sel p.2) result) r0) =
      keysS r0 ++ keysS we ∧
    (∀ k, k ∉ keysS we →
      lkp k (we.foldl (fun result p => setKey p.1 (acc path sel p.2) result) r0) =
        lkp k r0) ∧
    (∀ k e, lkp k we = some e →
      lkp k (we.foldl (fun result p => setKey p.1 (acc path sel p.2) result) r0) =
        some (acc path sel e)) := by
  induction we generalizing r0 with
  | nil =>
    refine ⟨by simp [keysS_nil], fun k _ => rfl, ?_⟩
    intro k e he
    simp [lkp] at he
  | cons p t ih =>
    rw [keysS_cons] at hnd
    have hnd_orig := hnd
    rw [List.nodup_append] at hnd
    obtain ⟨hnd0, hndk, hdisj⟩ := hnd
    rw [List.nodup_cons] at hndk
    obtain ⟨hpt, hndt⟩ := hndk
    have hp0 : p.1 ∉ keysS r0 := fun hm => hdisj hm (List.mem_cons_self _ _)
    have hkeys1 : keysS (setKey p.1 (acc path sel p.2) r0) = keysS r0 ++ [p.1] :=
      keysS_setKey_of_not_mem _ _ _ hp0
    have hnd1 : (keysS (setKey p.1 (acc path sel p.2) r0) ++ keysS t).Nodup := by
      rw [hkeys1, List.append_assoc]
      exact hnd_orig
    obtain ⟨ihkeys, ihfroz, ihlook⟩ := ih (setKey p.1 (acc path sel p.2) r0) hnd1
    rw [List.foldl_cons]
    refine ⟨?_, ?_, ?_⟩
    · rw [ihkeys, hkeys1, List.append_assoc]
      rfl
    · intro k hk
      rw [keysS_cons, List.mem_cons] at hk
      push_neg at hk
      rw [ihfroz k hk.2, lkp_setKey_ne _ _ _ _ hk.1]
    · intro k e he
      rw [lkp] at he
      by_cases hpk : p.1 = k
      · rw [if_pos hpk] at he
        have he2 : e = p.2 := by injection he.symm
        subst he2
        subst hpk
        rw [ihfroz p.1 hpt, lkp_setKey_self]
      · rw [if_neg hpk] at he
        exact ihlook k e he

theorem calculate_yields_spec (acc : Accessor) (path sel : String)
    (we : List (String × String)) (hnd : (keysS we).Nodup) :
    keysS (calculate_yields acc path we sel) = keysS we ∧
    ∀ k e, lkp k we = some e →
      lkp k (calculate_yields acc path we sel) = some (acc path sel e) := by
  have h := cyFold_spec acc path sel we [] (by simpa [keysS_nil] using hnd)
  exact ⟨by simpa [keysS_nil] using h.1, h.2.2⟩

/-! ## Generic fold lemmas for the nominal pass -/

theorem foldl_getD0_add {α : Type} (k : String) (l : List α)
    (step : List (String × ℚ) → α → List (String × ℚ)) (w : α → ℚ)
    (hs : ∀ r x, getD0 (step r x) k = getD0 r k + w x) (r0 : List (String × ℚ)) :
    getD0 (l.foldl step r0) k = getD0 r0 k + (l.map w).sum := by
  induction l generalizing r0 with
  | nil => simp
  | cons x t ih =>
    rw [List.foldl_cons, ih (step r0 x), hs r0 x, List.map_cons, List.sum_cons]
    ring

theorem foldl_mem_keys_pres {α : Type} (k : String) (t : List α)
    (step : List (String × ℚ) → α → List (String × ℚ))
    (hpres : ∀ r x, k ∈ keysS r → k ∈ keysS (step r x)) (r0 : List (String × ℚ))
    (h0 : k ∈ keysS r0) : k ∈ keysS (t.foldl step r0) := by
  induction t generalizing r0 with
  | nil => exact h0
  | cons x t ih => exact ih _ (hpres r0 x h0)

theorem foldl_mem_keys {α : Type} (k : String) (l : List α)
    (step : List (String × ℚ) → α → List (String × ℚ))
    (hpres : ∀ r x, k ∈ keysS r → k ∈ keysS (step r x))
    (hadd : ∀ r x, k ∈ keysS (step r x)) (r0 : List (String × ℚ))
    (hl : l ≠ []) : k ∈ keysS (l.foldl step r0) := by
  cases l with
  | nil => cases hl rfl
  | cons x t =>
    rw [List.foldl_cons]
    exact foldl_mem_keys_pres k t step hpres _ (hadd r0 x)

/-! ## The nominal / weight-based pass -/

theorem nominal_pass_spec (acc : Accessor) (resolved base_path : String)
    (folders files : List String) (selection : String)
    (we : List (String × String)) (hnd : (keysS we).Nodup)
    (k e : String) (hk : lkp k we = some e) :
    getD0 (nominal_pass acc resolved base_path folders files selection we) k =
      specWeightYield acc resolved base_path selection e folders files ∧
    (folders ≠ [] → files ≠ [] →
      k ∈ keysS (nominal_pass acc resolved base_path folders files selection we)) := by
  have hmemwe : k ∈ keysS we := by
    rw [mem_keysS_iff_lkp, hk]
    rfl
  have hcykeys : ∀ folder file : String,
      keysS (calculate_yields acc
        (joinPath base_path folder (ensure_root_extension file)) we
        (adjust_selection_nominal resolved selection folder)) = keysS we :=
    fun folder file => (calculate_yields_spec acc
      (joinPath base_path folder (ensure_root_extension file))
      (adjust_selection_nominal resolved selection folder) we hnd).1
  have hcyval : ∀ folder file : String,
      getD0 (calculate_yields acc
        (joinPath base_path folder (ensure_root_extension file)) we
        (adjust_selection_nominal resolved selection folder)) k =
        acc (joinPath base_path folder (ensure_root_extension file))
          (adjust_selection_nominal resolved selection folder) e := by
    intro folder file
    have h2 := (calculate_yields_spec acc
      (joinPath base_path folder (ensure_root_extension file))
      (adjust_selection_nominal resolved selection folder) we hnd).2 k e hk
    simp [getD0, h2]
  have hcymem : ∀ folder file : String,
      k ∈ keysS (calculate_yields acc
        (joinPath base_path folder (ensure_root_extension file)) we
        (adjust_selection_nominal resolved selection folder)) := by
    intro folder file
    rw [hcykeys folder file]
    exact hmemwe
  have hsIn : ∀ (folder : String) (r : List (String × ℚ)) (file : String),
      getD0 (mergeY r (calculate_yields acc
        (joinPath base_path folder (ensure_root_extension file)) we
        (adjust_selection_nominal resolved selection folder))) k =
        getD0 r k + acc (joinPath base_path folder (ensure_root_extension file))
          (adjust_selection_nominal resolved selection folder) e := by
    intro folder r file
    rw [getD0_mergeY _ _ _ (by rw [hcykeys folder file]; exact hnd),
      hcyval folder file]
  have hsOut : ∀ (r : List (String × ℚ)) (folder : String),
      getD0 (files.foldl (fun result file_rel_path =>
        mergeY result (calculate_yields acc
          (joinPath base_path folder (ensure_root_extension file_rel_path)) we
          (adjust_selection_nominal resolved selection folder))) r) k =
        getD0 r k + (files.map (fun file =>
          acc (joinPath base_path folder (ensure_root_extension file))
            (adjust_selection_nominal resolved selection folder) e)).sum := by
    intro r folder
    exact foldl_getD0_add k files _ _ (fun r2 file => hsIn folder r2 file) r
  constructor
  · simp only [nominal_pass]
    rw [foldl_getD0_add k folders _ _ hsOut [], getD0_nil, zero_add,
      specWeightYield]
  · intro hfo hfi
    simp only [nominal_pass]
    refine foldl_mem_keys k folders _ ?_ ?_ [] hfo
    · intro r folder hr
      exact foldl_mem_keys_pres k files _
        (fun r2 file h2 => (mem_keysS_mergeY _ _ _).mpr (Or.inl h2)) r hr
    · intro r folder
      refine foldl_mem_keys k files _
        (fun r2 file h2 => (mem_keysS_mergeY _ _ _).mpr (Or.inl h2))
        (fun r2 file => (mem_keysS_mergeY _ _ _).mpr
          (Or.inr (hcymem folder file))) r hfi

/-! ## Popping `"nominal"` and the sample-systematics pass -/

theorem lkp_filter_ne (m : List (String × ℚ)) (k : String) (hk : k ≠ "nominal") :
    lkp k (m.filter (fun p => p.1 != "nominal")) = lkp k m := by
  induction m with
  | nil => rfl
  | cons p t ih =>
    rw [List.filter_cons]
    by_cases hp : p.1 = "nominal"
    · rw [if_neg (by simp [hp])]
      rw [ih, lkp, if_neg (by rw [hp]; exact Ne.symm hk)]
    · rw [if_pos (by simp [hp]), lkp, lkp]
      by_cases hpk : p.1 = k
      · rw [if_pos hpk, if_pos hpk]
      · rw [if_neg hpk, if_neg hpk, ih]

theorem sampleKeys_weight_cons (w : WeightSystematic) (t : List Systematic) :
    sampleKeys (Systematic.weight w :: t) = sampleKeys t := rfl

theorem sampleKeys_sample_cons (s : SampleSystematic) (t : List Systematic) :
    sampleKeys (Systematic.sample s :: t) =
      (s.name ++ "_" ++ "up") :: (s.name ++ "_" ++ "down") :: sampleKeys t := rfl

theorem lkp_sample_direction_ne (acc : Accessor) (resolved base_path : String)
    (folders : List String) (nominal_weight selection sname vt : String)
    (filesOpt : Option (List String)) (weightOpt : Option String)
    (sy : List (String × ℚ)) (k : String) (hk : k ≠ sname ++ "_" ++ vt) :
    lkp k (sample_direction acc resolved base_path folders nominal_weight
      selection sname vt filesOpt weightOpt sy) = lkp k sy := by
  cases filesOpt with
  | none => rfl
  | some files =>
    simp only [sample_direction]
    exact lkp_setKey_ne _ _ _ _ hk

theorem lkp_sample_pass_frozen (acc : Accessor) (resolved base_path : String)
    (folders : List String) (nominal_weight selection : String)
    (ss : List Systematic) (sy : List (String × ℚ)) (k : String)
    (hk : k ∉ sampleKeys ss) :
    lkp k (sample_systematics_pass acc resolved base_path folders nominal_weight
      selection ss sy) = lkp k sy := by
  induction ss generalizing sy with
  | nil => rfl
  | cons s t ih =>
    cases s with
    | weight w =>
      rw [sampleKeys_weight_cons] at hk
      show lkp k (sample_systematics_pass acc resolved base_path folders
        nominal_weight selection t sy) = lkp k sy
      exact ih sy hk
    | sample sp =>
      rw [sampleKeys_sample_cons, List.mem_cons] at hk
      push_neg at hk
      obtain ⟨hkup, hk2⟩ := hk
      rw [List.mem_cons] at hk2
      push_neg at hk2
      obtain ⟨hkdown, hkt⟩ := hk2
      show lkp k (sample_systematics_pass acc resolved base_path folders
        nominal_weight selection t
        (process_sample_based_systematic acc resolved sp sy base_path folders
          nominal_weight selection)) = lkp k sy
      rw [ih _ hkt]
      rw [process_sample_based_systematic,
        lkp_sample_direction_ne _ _ _ _ _ _ _ _ _ _ _ _ hkdown,
        lkp_sample_direction_ne _ _ _ _ _ _ _ _ _ _ _ _ hkup]

/-! ## C6: weight-based systematic yields -/

/-- C6: for every flavour and weight-based systematic `n`, the yields the
flavour result stores under `n_up` / `n_down` equal the sum, over all
folders and files, of the accessor sum with weight
`(nominal)*(up-factor)` resp. `(nominal)*(down-factor)`, evaluated under
the same effective selection as the nominal pass of that folder (the keys
are assumed pairwise distinct and at least one folder and file are
configured). -/
theorem C6_weight_yields (acc : Accessor)
    (resolved base_path nominal_weight : String) (folders : List String)
    (fc : FlavourConfig) (w : WeightSystematic)
    (hw : Systematic.weight w ∈ fc.systematics)
    (hnd : ("nominal" :: systWeightKeys fc.systematics).Nodup)
    (hup : (w.name ++ "_up") ∉ sampleKeys fc.systematics)
    (hdown : (w.name ++ "_down") ∉ sampleKeys fc.systematics)
    (hfo : folders ≠ []) (hfi : fc.files ≠ []) :
    lkp (w.name ++ "_up")
      (process_flavour acc resolved base_path folders nominal_weight fc).2 =
      some (specWeightYield acc resolved base_path fc.selection
        ("(" ++ nominal_weight ++ ")*(" ++ w.up_weight ++ ")")
        folders fc.files) ∧
    lkp (w.name ++ "_down")
      (process_flavour acc resolved base_path folders nominal_weight fc).2 =
      some (specWeightYield acc resolved base_path fc.selection
        ("(" ++ nominal_weight ++ ")*(" ++ w.down_weight ++ ")")
        folders fc.files) := by
  obtain ⟨hkeys, hlook⟩ := buildWeightExprs_spec fc.systematics nominal_weight hnd
  have hndwe : (keysS (buildWeightExprs fc.systematics nominal_weight)).Nodup := by
    rw [hkeys]; exact hnd
  obtain ⟨hlkup, hlkdown⟩ := hlook w hw
  have hkeyne : ∀ kk, kk ∈ systWeightKeys fc.systematics → kk ≠ "nominal" := by
    intro kk hkk heq
    subst heq
    rw [List.nodup_cons] at hnd
    exact hnd.1 hkk
  have hupne := hkeyne _ (mem_systWeightKeys hw).1
  have hdownne := hkeyne _ (mem_systWeightKeys hw).2
  obtain ⟨hval_up, hmem_up⟩ := nominal_pass_spec acc resolved base_path folders
    fc.files fc.selection _ hndwe (w.name ++ "_up") _ hlkup
  obtain ⟨hval_down, hmem_down⟩ := nominal_pass_spec acc resolved base_path folders
    fc.files fc.selection _ hndwe (w.name ++ "_down") _ hlkdown
  have hpf : (process_flavour acc resolved base_path folders nominal_weight fc).2 =
      sample_systematics_pass acc resolved base_path folders nominal_weight
        fc.selection fc.systematics
        ((nominal_pass acc resolved base_path folders fc.files fc.selection
          (buildWeightExprs fc.systematics nominal_weight)).filter
          (fun p => p.1 != "nominal")) := rfl
  rw [hpf]
  constructor
  · rw [lkp_sample_pass_frozen _ _ _ _ _ _ _ _ _ hup,
      lkp_filter_ne _ _ hupne, lkp_eq_getD0 (hmem_up hfo hfi), hval_up]
  · rw [lkp_sample_pass_frozen _ _ _ _ _ _ _ _ _ hdown,
      lkp_filter_ne _ _ hdownne, lkp_eq_getD0 (hmem_down hfo hfi), hval_down]

/-- C6 witness: the weight-systematic yields at a concrete configuration
with one weight-based and one sample-based systematic. -/
theorem C6_witness :
    lkp ("jes" ++ "_up") (process_flavour accW "&&r" "/b" ["f_a"] "w" fcW).2 =
      some (specWeightYield accW "&&r" "/b" "sel"
        ("(" ++ "w" ++ ")*(" ++ "1.1" ++ ")") ["f_a"] ["f1"]) ∧
    lkp ("jes" ++ "_down") (process_flavour accW "&&r" "/b" ["f_a"] "w" fcW).2 =
      some (specWeightYield accW "&&r" "/b" "sel"
        ("(" ++ "w" ++ ")*(" ++ "0.9" ++ ")") ["f_a"] ["f1"]) :=
  C6_weight_yields accW "&&r" "/b" "w" ["f_a"] fcW wsysJes (by decide)
    (by decide) (by decide) (by decide) (by decide) (by decide)

/-! ## C7: sample-based systematic totals -/

theorem foldl_step_add {α : Type} (l : List α) (step : ℚ → α → ℚ) (f : α → ℚ)
    (hs : ∀ a x, step a x = a + f x) (a0 : ℚ) :
    l.foldl step a0 = a0 + (l.map f).sum := by
  induction l generalizing a0 with
  | nil => simp
  | cons x t ih =>
    rw [List.foldl_cons, ih, hs, List.map_cons, List.sum_cons]
    ring

theorem calculate_yields_single (acc : Accessor) (path sel combined : String) :
    getD0 (calculate_yields acc path [("nominal", combined)] sel) "nominal" =
      acc path sel combined := by
  simp [calculate_yields, setKey, getD0, lkp]

theorem sample_direction_some (acc : Accessor) (resolved base_path : String)
    (folders : List String) (nominal_weight selection sname vt : String)
    (fl : List String) (weightOpt : Option String) (sy : List (String × ℚ)) :
    sample_direction acc resolved base_path folders nominal_weight selection
      sname vt (some fl) weightOpt sy =
    setKey (sname ++ "_" ++ vt)
      (sampleDirTotal acc resolved base_path nominal_weight selection
        (weightOpt.getD "1") folders fl) sy := by
  simp only [sample_direction]
  congr 1
  rw [foldl_step_add fl _
    (fun file => (folders.map (fun folder =>
      acc (joinPath base_path folder (ensure_root_extension file))
        (adjust_selection_sample resolved selection folder)
        ("(" ++ nominal_weight ++ ")*(" ++ weightOpt.getD "1" ++ ")"))).sum)
    ?_ 0]
  · rw [zero_add, sampleDirTotal]
  · intro a file
    rw [foldl_step_add folders _
      (fun folder => acc (joinPath base_path folder (ensure_root_extension file))
        (adjust_selection_sample resolved selection folder)
        ("(" ++ nominal_weight ++ ")*(" ++ weightOpt.getD "1" ++ ")"))
      ?_ a]
    intro a2 folder
    rw [calculate_yields_single]

theorem sample_name_up_ne_down (sname : String) :
    sname ++ "_" ++ "up" ≠ sname ++ "_" ++ "down" :=
  append_ne_of_data_length (by decide) (sname ++ "_")

/-- C7: for a sample-based systematic, a configured direction's total over
all its files and folders (accessor sum with weight
`(nominal)*(additional, default "1")`) is stored directly under
`<name>_<direction>` — overwriting whatever was there, independently of
any prior value — while a missing direction leaves its key absent from
the mapping (not set to zero). -/
theorem C7_sample_direction (acc : Accessor) (resolved base_path : String)
    (folders : List String) (nominal_weight selection : String)
    (s : SampleSystematic) (sy : List (String × ℚ)) :
    (∀ fl, s.up_files = some fl →
      lkp (s.name ++ "_" ++ "up")
        (process_sample_based_systematic acc resolved s sy base_path folders
          nominal_weight selection) =
        some (sampleDirTotal acc resolved base_path nominal_weight selection
          (s.up_weight.getD "1") folders fl)) ∧
    (s.up_files = none → (s.name ++ "_" ++ "up") ∉ keysS sy →
      (s.name ++ "_" ++ "up") ∉ keysS
        (process_sample_based_systematic acc resolved s sy base_path folders
          nominal_weight selection)) ∧
    (∀ fl, s.down_files = some fl →
      lkp (s.name ++ "_" ++ "down")
        (process_sample_based_systematic acc resolved s sy base_path folders
          nominal_weight selection) =
        some (sampleDirTotal acc resolved base_path nominal_weight selection
          (s.down_weight.getD "1") folders fl)) ∧
    (s.down_files = none → (s.name ++ "_" ++ "down") ∉ keysS sy →
      (s.name ++ "_" ++ "down") ∉ keysS
        (process_sample_based_systematic acc resolved s sy base_path folders
          nominal_weight selection)) := by
  have hne := sample_name_up_ne_down s.name
  refine ⟨?_, ?_, ?_, ?_⟩
  · intro fl hfl
    rw [process_sample_based_systematic, hfl, sample_direction_some]
    cases hdf : s.down_files with
    | none =>
      show lkp _ (setKey (s.name ++ "_" ++ "up") _ sy) = _
      rw [lkp_setKey_self]
    | some fl2 =>
      rw [sample_direction_some, lkp_setKey_ne _ _ _ _ hne, lkp_setKey_self]
  · intro hfl hmem
    rw [process_sample_based_systematic, hfl]
    cases hdf : s.down_files with
    | none =>
      exact hmem
    | some fl2 =>
      rw [sample_direction_some]
      intro hmem2
      rcases (mem_keysS_setKey _ _ _ _).mp hmem2 with h1 | h1
      · exact hmem h1
      · exact hne h1
  · intro fl hfl
    rw [process_sample_based_systematic, hfl, sample_direction_some,
      lkp_setKey_self]
  · intro hfl hmem
    rw [process_sample_based_systematic, hfl]
    cases huf : s.up_files with
    | none =>
      exact hmem
    | some fl2 =>
      rw [sample_direction_some]
      intro hmem2
      rcases (mem_keysS_setKey _ _ _ _).mp hmem2 with h1 | h1
      · exact hmem h1
      · exact Ne.symm hne h1
/-- C7 witness: a sample systematic with only `up_files` configured stores
the up total and leaves the down key absent. -/
theorem C7_witness :
    lkp ("mod" ++ "_" ++ "up")
      (process_sample_based_systematic accW "&&r" ssampMod [] "/b" ["f_a"]
        "w" "sel") =
      some (sampleDirTotal accW "&&r" "/b" "w" "sel" "1" ["f_a"] ["alt"]) ∧
    ("mod" ++ "_" ++ "down") ∉ keysS
      (process_sample_based_systematic accW "&&r" ssampMod [] "/b" ["f_a"]
        "w" "sel") := by
  constructor
  · exact (C7_sample_direction accW "&&r" "/b" ["f_a"] "w" "sel"
      ssampMod []).1 ["alt"] rfl
  · exact (C7_sample_direction accW "&&r" "/b" ["f_a"] "w" "sel"
      ssampMod []).2.2.2 rfl (by decide)

/-! ## C8: parallel and sequential `run` agree -/

theorem zip_map_fst {β : Type} (l : List (String × FlavourConfig))
    (f : (String × FlavourConfig) → β) :
    (l.map Prod.fst).zip (l.map f) = l.map (fun p => (p.1, f p)) := by
  induction l with
  | nil => rfl
  | cons p t ih => simp [ih]

theorem runParAux_eq_seq (acc : Accessor) (resolved base_path : String)
    (folders : List String) (nominal_weight : String)
    (flavours : List (String × FlavourConfig))
    (results : List (String × FlavourResult)) :
    runParAux (flavours.map (fun p =>
      (p.1, process_flavour acc resolved base_path folders nominal_weight p.2)))
      results =
    runSeqAux acc resolved base_path folders nominal_weight flavours results := by
  induction flavours generalizing results with
  | nil => rfl
  | cons p t ih =>
    rw [List.map_cons]
    cases hb : buildRenorms
        (process_flavour acc resolved base_path folders nominal_weight p.2).1
        (process_flavour acc resolved base_path folders nominal_weight p.2).2 []
      with
    | error e => simp [runParAux, runSeqAux, hb]
    | ok renormalisations =>
      simp only [runParAux, runSeqAux, hb]
      exact ih _

/-- C8: `run` with the parallel flag produces exactly the same result
value (per-flavour nominal yield, systematic-yield mapping and
renormalisation mapping, or the same uncaught error) as the sequential
run — the per-flavour computation is a pure function of the read-only
inputs, and the pool map preserves input order. -/
theorem C8_run_parallel_eq_sequential (acc : Accessor)
    (resolved base_path : String) (folders : List String)
    (nominal_weight : String) (flavours : List (String × FlavourConfig)) :
    runCalc acc resolved base_path folders nominal_weight flavours true =
      runCalc acc resolved base_path folders nominal_weight flavours false := by
  have h1 : runCalc acc resolved base_path folders nominal_weight flavours true =
      runParAux ((flavours.map Prod.fst).zip (flavours.map (fun p =>
        process_flavour acc resolved base_path folders nominal_weight p.2)))
        [] := by
    simp [runCalc]
  have h2 : runCalc acc resolved base_path folders nominal_weight flavours false =
      runSeqAux acc resolved base_path folders nominal_weight flavours [] := by
    simp [runCalc]
  rw [h1, h2, zip_map_fst]
  exact runParAux_eq_seq acc resolved base_path folders nominal_weight
    flavours []

/-! ## C9: configuration validation -/

/-- C9: when the parsed configuration is missing (unreadable, malformed or
empty file) or lacks any of the four required top-level keys, constructing
the calculator fails with an error — before any yield computation can
happen, since the calculator value is never produced. -/
theorem C9_config_validation (read_result : Option (List String))
    (h : read_result = none ∨ ∃ ks, read_result = some ks ∧
      ∃ kk, kk ∈ required_keys ∧ kk ∉ ks) :
    ∃ msg, calcInit read_result = Except.error msg := by
  rcases h with h | ⟨ks, hks, kk, hmem, hnot⟩
  · subst h
    exact ⟨"Failed to load configuration.", rfl⟩
  · subst hks
    have hval : validate_config ks = false := by
      cases hv : validate_config ks with
      | false => rfl
      | true =>
        exfalso
        rw [validate_config] at hv
        have hc := List.all_eq_true.mp hv kk hmem
        simp at hc
        exact hnot hc
    refine ⟨"Configuration validation failed.", ?_⟩
    simp [calcInit, hval]

/-- C9 witness: a configuration missing `nominal_weight` is rejected. -/
theorem C9_witness :
    ∃ msg, calcInit (some ["base_path", "folders", "flavours"]) =
      Except.error msg :=
  C9_config_validation _ (Or.inr ⟨["base_path", "folders", "flavours"], rfl,
    "nominal_weight", by decide, by decide⟩)
